import Mathlib

/-!
# Verification of the `jsondata` Sphinx builder
(`python/docs/src/_extension/json_builder.py`)

The builder collects API class records and literal code blocks from a
documentation tree, links code blocks to API records by a word-boundary
regex search on the class's short name, and emits the enriched records.

This file shallowly embeds the data model and the operations of that
module and proves the specified properties about them.  Machine-level
concerns (JSON serialization, file I/O, the docutils framework itself)
are external collaborators and are not modelled; the linker, the
visitors and the per-document dispatch are modelled faithfully from the
source.
-/

namespace JsonBuilder

/-! ## Data model

`APIRecord` mirrors the dict built in `APIDataVisitor.visit_desc`
(keys `class_name`, `signature`, `description`, `parameters`,
`examples`); `ParameterRecord` mirrors the dict appended in
`APIDataVisitor.visit_field` (keys `name`, `type`, `description`). -/

structure ParameterRecord where
  name : String
  type_str : String
  description : String
deriving Repr, DecidableEq

structure APIRecord where
  class_name : String
  signature : String
  description : String
  parameters : List ParameterRecord
  examples : List String
deriving Repr, DecidableEq

/-! ## Word characters and the word-boundary search

`re.search(rf"\b{short_name}\b", code)` (line 75 of the source) is
embedded as `searchWB`.  `\b` is a zero-width assertion that holds at a
position where exactly one of the two surrounding characters is a word
character (a missing character, at the ends of the string, counts as a
non-word character).  The embedding models the ASCII word characters
`[A-Za-z0-9_]`; short names are Python identifiers, for which this
matches `re`'s semantics, and the pattern text is the short name taken
literally (short names contain no regex metacharacters). -/

def isWordChar (c : Char) : Bool := c.isAlphanum || c == '_'

def isWordOpt : Option Char → Bool
  | none => false
  | some c => isWordChar c

/-- The last character of `pre`, or `prev` when `pre` is empty: the
character immediately to the left of a match position reached after
scanning past `pre`. -/
def lastPrev : List Char → Option Char → Option Char
  | [], prev => prev
  | c :: l, _ => lastPrev l (some c)

/-- Does the pattern `\b s \b` (with `s` taken literally) match at the
current position, where `prev` is the character just before the current
position (`none` at the start of the string)?  The first `\b` compares
`prev` with the first character of `s` (or, when `s` is empty, the
current character of `code`); the second compares the last character of
`s` (or, when `s` is empty, `prev`) with the character of `code` just
after the match. -/
def matchHere (s : List Char) (prev : Option Char) (code : List Char) : Bool :=
  s.isPrefixOf code &&
    (isWordOpt prev != isWordOpt (match s.head? with | some c => some c | none => code.head?)) &&
    (isWordOpt (match s.getLast? with | some c => some c | none => prev) !=
      isWordOpt (code.drop s.length).head?)

/-- Scan `code` left to right, trying `matchHere` at every position;
`prev` is the character just before the current position. -/
def searchAux (s : List Char) : Option Char → List Char → Bool
  | prev, [] => matchHere s prev []
  | prev, c :: rest => matchHere s prev (c :: rest) || searchAux s (some c) rest

/-- `searchWB S code` embeds `re.search(rf"\b{S}\b", code) is not None`. -/
def searchWB (sS code : String) : Bool := searchAux sS.data none code.data

/-- Substring containment: embeds Python's `needle in hay` on strings. -/
def substrAux (needle : List Char) : List Char → Bool
  | [] => needle.isEmpty
  | c :: rest => needle.isPrefixOf (c :: rest) || substrAux needle rest

def substrB (hay needle : String) : Bool := substrAux needle.data hay.data

/-! ## The linking lookup (`finish`, line 67)

`class_map = {info["class_name"].split(".")[-1]: info for info in
self.all_api_classes}` — a Python dict from short name to record.
Because the dict values are references into `all_api_classes`, the
lookup is embedded as an association list from short name to the
record's *index* in the collected sequence; Python dict semantics:
a repeated key keeps its first position but its value is overwritten,
so the later record wins. -/

/-- Python `str.split(sep)` for a one-character separator: splitting
`""` gives `[[]]`, a trailing separator yields a trailing empty
segment, exactly as in Python. -/
def splitOnChar (sep : Char) : List Char → List (List Char)
  | [] => [[]]
  | c :: rest =>
    let r := splitOnChar sep rest
    if c = sep then [] :: r
    else
      match r with
      | [] => [[c]]
      | seg :: segs => (c :: seg) :: segs

/-- `class_name.split(".")[-1]`: the short name. -/
def shortName (cn : String) : String := ⟨(splitOnChar '.' cn.data).getLastD []⟩

/-- Python dict assignment `m[k] = v`: overwrite the value in place if
the key is present, else append a fresh entry. -/
def dictInsertNat (m : List (String × Nat)) (k : String) (v : Nat) : List (String × Nat) :=
  if m.any (fun p => p.1 == k) then
    m.map (fun p => if p.1 == k then (p.1, v) else p)
  else m ++ [(k, v)]

def classMapAux : List (String × Nat) → Nat → List String → List (String × Nat)
  | m, _, [] => m
  | m, i, s :: rest => classMapAux (dictInsertNat m s i) (i + 1) rest

/-- The short-name → record-index lookup built at `finish` line 67. -/
def classMap (api : List APIRecord) : List (String × Nat) :=
  classMapAux [] 0 (api.map (fun r => shortName r.class_name))

/-! ## The linker (`finish`, lines 70–78) -/

/-- Replace the element at index `i` (no-op when out of range). -/
def updateAt : Nat → (APIRecord → APIRecord) → List APIRecord → List APIRecord
  | _, _, [] => []
  | 0, f, r :: rs => f r :: rs
  | i + 1, f, r :: rs => r :: updateAt i f rs

/-- The body of the innermost loop: one `(short_name, class_info)`
entry against one code block.  `if re.search(rf"\b{short_name}\b",
code): if code not in class_info["examples"]:
class_info["examples"].append(code)`. -/
def linkCodeEntry (code : String) (st : List APIRecord) (e : String × Nat) : List APIRecord :=
  if searchWB e.1 code then
    updateAt e.2
      (fun r => if code ∈ r.examples then r else { r with examples := r.examples ++ [code] }) st
  else st

/-- `for short_name, class_info in class_map.items(): ...` -/
def linkEntries (m : List (String × Nat)) (st : List APIRecord) (code : String) :
    List APIRecord :=
  m.foldl (linkCodeEntry code) st

/-- `for code in code_blocks: ...` -/
def linkCodes (m : List (String × Nat)) (st : List APIRecord) (codes : List String) :
    List APIRecord :=
  codes.foldl (linkEntries m) st

/-- `for docname, code_blocks in self.all_code_blocks.items(): ...`
The collected blocks are an insertion-ordered mapping from document
name to the list of code blocks of that document. -/
def linkAll (m : List (String × Nat)) (st : List APIRecord)
    (blocks : List (String × List String)) : List APIRecord :=
  blocks.foldl (fun st2 p => linkCodes m st2 p.2) st

/-- The whole linking phase of `finish` (lines 67–78): build the lookup
once, then run every code block of every document against every entry.
The enriched record list is what `json.dump` then serializes, in
order. -/
def finishLink (api : List APIRecord) (blocks : List (String × List String)) :
    List APIRecord :=
  linkAll (classMap api) api blocks

/-- All code-block texts of the collected mapping, in iteration order. -/
def allCodes (blocks : List (String × List String)) : List String :=
  (blocks.map Prod.snd).flatten

/-- The examples list of the record at index `i` (`[]` out of range). -/
def exAt (st : List APIRecord) (i : Nat) : List String :=
  match st[i]? with
  | none => []
  | some r => r.examples

/-- The fields of a record other than `examples`. -/
def otherFields (r : APIRecord) : String × String × String × List ParameterRecord :=
  (r.class_name, r.signature, r.description, r.parameters)

/-- Spec side, from the spec's words: the short name `S` "occurs in the
code block as a case-sensitive match bounded by word boundaries": some
occurrence of `S` in `B` whose neighbouring characters (when they
exist) are not word characters — so `S` occurring only inside a longer
identifier is not such an occurrence. -/
def StandaloneOcc (sS B : String) : Prop :=
  ∃ pre post : List Char, B.data = pre ++ sS.data ++ post ∧
    isWordOpt pre.getLast? = false ∧ isWordOpt post.head? = false

/-! ## The document tree

A shallow model of the docutils/Sphinx node tree, restricted to the
node classes the visitors dispatch on.  Every node class the extension
never mentions is collapsed into `other` (the visitors treat them all
with the no-op `unknown_visit`/`unknown_departure`).  `desc` carries
its `objtype` attribute, `desc_signature` its `ids` attribute; these
are the only attributes the code reads. -/

inductive NKind where
  | desc (objtype : String)
  | descSignature (ids : List String)
  | descContent
  | paragraph
  | field
  | listItem
  | strong
  | emphasis
  | literalBlock
  | other (tag : String)
deriving Repr, DecidableEq

inductive DocNode where
  | text (s : String)
  | elem (kind : NKind) (children : List DocNode)
deriving Repr

mutual
/-- `node.astext()`: the concatenated text of all `Text` descendants.
(Every `astext` call site in the extension is on a `TextElement`
subclass, whose child-text separator is the empty string, so plain
concatenation is the faithful semantics at those call sites.) -/
def astext : DocNode → String
  | .text s => s
  | .elem _ cs => astextList cs

def astextList : List DocNode → String
  | [] => ""
  | c :: cs => astext c ++ astextList cs
end

mutual
/-- `next(iter(node.traverse(cond)), None)`: the first node of the
subtree (preorder, including the node itself) satisfying `p`. -/
def findFirst (p : DocNode → Bool) : DocNode → Option DocNode
  | .text s => if p (.text s) then some (.text s) else none
  | .elem k cs =>
    if p (.elem k cs) then some (.elem k cs) else findFirstList p cs

def findFirstList (p : DocNode → Bool) : List DocNode → Option DocNode
  | [] => none
  | c :: cs =>
    match findFirst p c with
    | some r => some r
    | none => findFirstList p cs
end

mutual
/-- `node.traverse(cond)`: all nodes of the subtree (preorder,
including the node itself) satisfying `p`. -/
def collectAll (p : DocNode → Bool) : DocNode → List DocNode
  | .text s => if p (.text s) then [.text s] else []
  | .elem k cs =>
    (if p (.elem k cs) then [DocNode.elem k cs] else []) ++ collectAllList p cs

def collectAllList (p : DocNode → Bool) : List DocNode → List DocNode
  | [] => []
  | c :: cs => collectAll p c ++ collectAllList p cs
end

def isSigNode : DocNode → Bool
  | .elem (.descSignature _) _ => true
  | _ => false

def isContentNode : DocNode → Bool
  | .elem .descContent _ => true
  | _ => false

def isParagraphNode : DocNode → Bool
  | .elem .paragraph _ => true
  | _ => false

def isStrongNode : DocNode → Bool
  | .elem .strong _ => true
  | _ => false

def isEmphasisNode : DocNode → Bool
  | .elem .emphasis _ => true
  | _ => false

def isListItemNode : DocNode → Bool
  | .elem .listItem _ => true
  | _ => false

def isLiteralBlockNode : DocNode → Bool
  | .elem .literalBlock _ => true
  | _ => false

def sigIds : DocNode → List String
  | .elem (.descSignature ids) _ => ids
  | _ => []

/-! ## Signature normalization (`visit_desc`, line 99)

`re.sub(r"\s+", " ", sig_node.astext()).replace("¶[source]", "").strip()`
(ASCII whitespace model). -/

def isPySpace (c : Char) : Bool :=
  c == ' ' || c == '\t' || c == '\n' || c == '\r' || c == '\x0b' || c == '\x0c'

/-- `re.sub(r"\s+", " ", s)`: each maximal run of whitespace becomes a
single space. -/
def collapseWsAux : List Char → Bool → List Char
  | [], _ => []
  | c :: cs, inRun =>
    if isPySpace c then
      if inRun then collapseWsAux cs true else ' ' :: collapseWsAux cs true
    else c :: collapseWsAux cs false

def collapseWs (s : String) : String := ⟨collapseWsAux s.data false⟩

def pyStrip (s : String) : String :=
  ⟨(s.data.dropWhile isPySpace).reverse.dropWhile isPySpace |>.reverse⟩

def normSig (s : String) : String :=
  pyStrip ((collapseWs s).replace "¶[source]" "")

/-! ## The API visitor (`APIDataVisitor`) -/

/-- `visit_desc` (lines 94–113) on a `desc` node of objtype `class`:
the record built from the first signature descendant, or `none` when
there is no signature node (in which case nothing is appended and the
current-class pointer is left untouched). -/
def descRecord (n : DocNode) : Option APIRecord :=
  match findFirst isSigNode n with
  | none => none
  | some sig =>
    let class_name :=
      match sigIds sig with
      | [] => "UnknownClass"
      | i :: _ => i
    let signature := normSig (astext sig)
    let description :=
      match findFirst isContentNode n with
      | none => ""
      | some cn =>
        match findFirst isParagraphNode cn with
        | none => ""
        | some p => astext p
    some { class_name := class_name, signature := signature, description := description,
           parameters := [], examples := [] }

/-! ### Paths into the document tree

`visit_field` *mutates* the doctree: `strong_tag.parent.remove(...)` /
`emphasis_tag.parent.remove(...)` (lines 133–136), and those removals
persist — across the list items of the `traverse` loop, and into every
later read of the tree (nested `Parameters` fields, later visits).
The pure embedding models the mutable tree by addressing nodes with
paths (child-index lists) and modelling a removal as the replacement
of the removed subtree by an inert empty text node (`tombstone`): the
tombstone contributes nothing to any `astext` and matches no node
class, and — unlike deletion — it preserves the positions of all
other nodes, so paths computed before a removal stay valid, exactly
like the node references Python holds across mutations.  The model's
domain is docutils-shaped trees: `strong`/`emphasis` are inline nodes
and never contain `desc`, `field` or `list_item` descendants (docutils
inline elements hold only inline content), so tombstoning them never
hides a node the visitors dispatch on. -/

/-- The replacement for a removed subtree: contributes `""` to every
`astext`, matches no node class, has no descendants. -/
def tombstone : DocNode := .text ""

/-- The node at a path (child indices), `none` when the path does not
resolve. -/
def getAt : List Nat → DocNode → Option DocNode
  | [], n => some n
  | _ :: _, .text _ => none
  | i :: q, .elem _ cs =>
    match cs[i]? with
    | none => none
    | some c => getAt q c

mutual
/-- Replace the subtree at a path (no-op when the path does not
resolve). -/
def replaceAt : List Nat → DocNode → DocNode → DocNode
  | [], r, _ => r
  | _ :: _, _, .text s => .text s
  | i :: q, r, .elem k cs => .elem k (replaceChildAt i q r cs)

def replaceChildAt : Nat → List Nat → DocNode → List DocNode → List DocNode
  | _, _, _, [] => []
  | 0, q, r, c :: cs => replaceAt q r c :: cs
  | i + 1, q, r, c :: cs => c :: replaceChildAt i q r cs
end

mutual
/-- The path of the first node of the subtree (preorder, including the
node itself) satisfying `p`. -/
def findFirstPath (p : DocNode → Bool) : DocNode → Option (List Nat)
  | .text s => if p (.text s) then some [] else none
  | .elem k cs =>
    if p (.elem k cs) then some [] else findFirstPathList p 0 cs

def findFirstPathList (p : DocNode → Bool) : Nat → List DocNode → Option (List Nat)
  | _, [] => none
  | i, c :: cs =>
    match findFirstPath p c with
    | some q => some (i :: q)
    | none => findFirstPathList p (i + 1) cs
end

mutual
/-- The paths of all nodes of the subtree (preorder, including the
node itself) satisfying `p`: `node.traverse(cond)` with the returned
node references modelled as paths. -/
def collectPaths (p : DocNode → Bool) : DocNode → List (List Nat)
  | .text s => if p (.text s) then [[]] else []
  | .elem k cs =>
    (if p (.elem k cs) then [([] : List Nat)] else []) ++ collectPathsList p 0 cs

def collectPathsList (p : DocNode → Bool) : Nat → List DocNode → List (List Nat)
  | _, [] => []
  | i, c :: cs => (collectPaths p c).map (fun q => i :: q) ++ collectPathsList p (i + 1) cs
end

/-- The en-dash character written `"–"` in `visit_field` line 138. -/
def enDashChar : Char := '–'

/-- Everything after the first occurrence of `sep`, or `none` when
`sep` does not occur: Python `s.find(sep)` followed by the slice
`s[idx+1:]`. -/
def afterFirstChar (sep : Char) : List Char → Option (List Char)
  | [] => none
  | c :: rest => if c = sep then some rest else afterFirstChar sep rest

/-- `full_text.find("–")` + slice + `strip` (lines 138–139): the
trimmed text after the first en dash, empty when there is none. -/
def descAfterDash (full : String) : String :=
  match afterFirstChar enDashChar full.data with
  | none => ""
  | some rest => pyStrip ⟨rest⟩

/-- Lines 133–136 of `visit_field`, restricted to one paragraph: find
the first `strong` and the first `emphasis` of the (current) paragraph
first — as the code binds `strong_tag`/`emphasis_tag` before any
removal — then remove the `strong` subtree, then remove the `emphasis`
subtree *if it is still attached* (when it lay inside the removed
`strong`, Python's `emphasis_tag.parent.remove(...)` mutates only the
detached subtree and the paragraph is unaffected; here the path no
longer resolves to an `emphasis` and the second removal is a no-op). -/
def removeFirstStrongEmph (para : DocNode) : DocNode :=
  let para1 :=
    match findFirstPath isStrongNode para with
    | some q => replaceAt q tombstone para
    | none => para
  match findFirstPath isEmphasisNode para with
  | some q =>
    match getAt q para1 with
    | some n2 => if isEmphasisNode n2 then replaceAt q tombstone para1 else para1
    | none => para1
  | none => para1

/-- One iteration of the `for list_item in field_body.traverse(...)`
loop (`visit_field` lines 125–141) on the list item as it stands when
reached: the extracted record (`none` when the item has no paragraph
or the extracted name is empty) together with the item subtree after
this iteration's removals. -/
def itemParamOf (li : DocNode) : Option ParameterRecord × DocNode :=
  match findFirstPath isParagraphNode li with
  | none => (none, li)
  | some pq =>
    match getAt pq li with
    | none => (none, li)
    | some para =>
      let name :=
        match findFirstPath isStrongNode para with
        | some q => (match getAt q para with | some t => astext t | none => "")
        | none => ""
      let type_str :=
        match findFirstPath isEmphasisNode para with
        | some q => (match getAt q para with | some t => astext t | none => "Any")
        | none => "Any"
      let para2 := removeFirstStrongEmph para
      let desc := descAfterDash (astext para2)
      ((if name = "" then none
        else some { name := name, type_str := type_str, description := desc }),
       replaceAt pq para2 li)

/-- The whole item loop of `visit_field`: the item list is computed
once, up front, on the body as it stands when the field is visited
(docutils `traverse` materializes a list), but each item is *read from
the evolving tree* — the removals made while processing one item
persist into every later item (nested items share structure with
their ancestors).  Returns the extracted records in loop order and the
mutated body. -/
def processItems : DocNode → List (List Nat) → List ParameterRecord × DocNode
  | b, [] => ([], b)
  | b, q :: qs =>
    match getAt q b with
    | none => processItems b qs
    | some li =>
      let pr := itemParamOf li
      let rest := processItems (replaceAt q pr.2 b) qs
      ((match pr.1 with | some r => r :: rest.1 | none => rest.1), rest.2)

/-- `visit_field` on a field node's children (current, possibly
already mutated): nothing happens unless there are exactly two
children and the label text contains `"Parameters"`; otherwise the
item loop runs.  Returns the extracted parameter records and the
field's children after the loop's mutations. -/
def visitFieldChildren (cs : List DocNode) : List ParameterRecord × List DocNode :=
  match cs with
  | [a, b] =>
    if substrB (astext a) "Parameters" then
      let r := processItems b (collectPaths isListItemNode b)
      (r.1, [a, r.2])
    else ([], cs)
  | _ => ([], cs)

/-- The visitor state: the records collected so far, the index of the
currently open class record (`self.current_class` holds a reference
into `self.data`; the index embeds that reference), and the document
tree as mutated so far by `visit_field`. -/
structure WalkState where
  data : List APIRecord
  current : Option Nat
  tree : DocNode
deriving Repr

/-- The `visit_*` dispatch of `APIDataVisitor` on entering the node at
`path` (whose pristine kind is `k`; the node is read back from the
current, possibly mutated tree, as Python's visitor receives the live
node object).  `visit_field` returns early — mutating nothing — when
no class record is open or the node does not have exactly two
children. -/
def visitAt (ws : WalkState) (path : List Nat) (k : NKind) : WalkState :=
  match k with
  | .desc objtype =>
    if objtype = "class" then
      match getAt path ws.tree with
      | none => ws
      | some n =>
        match descRecord n with
        | some r => { ws with data := ws.data ++ [r], current := some ws.data.length }
        | none => ws
    else ws
  | .field =>
    match ws.current with
    | none => ws
    | some i =>
      match getAt path ws.tree with
      | some (.elem k2 cs) =>
        if cs.length = 2 then
          let r := visitFieldChildren cs
          { data := updateAt i
              (fun rec2 => { rec2 with parameters := rec2.parameters ++ r.1 }) ws.data,
            current := ws.current,
            tree := replaceAt path (.elem k2 r.2) ws.tree }
        else ws
      | _ => ws
  | _ => ws

/-- The `depart_*` dispatch of `APIDataVisitor` on leaving a node of
kind `k`. -/
def departAt (ws : WalkState) (k : NKind) : WalkState :=
  match k with
  | .desc objtype =>
    if objtype = "class" then { ws with current := none } else ws
  | _ => ws

mutual
/-- `doctree.walkabout(visitor)`: preorder visit/children/depart.  The
walk follows the pristine tree structure — faithful because the only
mutations replace `strong`/`emphasis` subtrees, which hold no node the
visitor dispatches on (docutils inline content) — while every read
inside a visit goes through the current tree in the state. -/
def walkN (ws : WalkState) (path : List Nat) : DocNode → WalkState
  | .text _ => ws
  | .elem k cs => departAt (walkChildren (visitAt ws path k) path 0 cs) k

def walkChildren (ws : WalkState) (path : List Nat) (i : Nat) : List DocNode → WalkState
  | [] => ws
  | c :: cs => walkChildren (walkN ws (path ++ [i]) c) path (i + 1) cs
end

/-- Running `APIDataVisitor` over one document tree: the records it
collects, in encounter order. -/
def apiVisit (tree : DocNode) : List APIRecord :=
  (walkN { data := [], current := none, tree := tree } [] tree).data

/-- Running `CodeBlockVisitor` over one document tree: the text of
every `literal_block`, in document order. -/
def codeBlocksOf (tree : DocNode) : List String :=
  (collectAll isLiteralBlockNode tree).map astext

/-! ## The per-document collection step (`write_doc`, lines 37–58) -/

/-- One document as handed to `write_doc`: its docname, the suffix of
its source path (computed by `pathlib` from `env.doc2path`, both
external), and its parsed tree. -/
structure Document where
  docname : String
  suffix : String
  tree : DocNode

/-- The two process-wide accumulators set up in `init`. -/
structure BuildState where
  all_api_classes : List APIRecord
  all_code_blocks : List (String × List String)
deriving Repr

def initState : BuildState := { all_api_classes := [], all_code_blocks := [] }

/-- Python dict assignment `self.all_code_blocks[docname] = blocks`. -/
def dictInsertBlocks (m : List (String × List String)) (k : String) (v : List String) :
    List (String × List String) :=
  if m.any (fun p => p.1 == k) then
    m.map (fun p => if p.1 == k then (p.1, v) else p)
  else m ++ [(k, v)]

/-- `write_doc`: the API visitor runs when `"reference/python" in
docname`; the code visitor runs when the source suffix is `.ipynb` or
`.md`; each extends its own accumulator only when it found anything. -/
def writeDoc (st : BuildState) (d : Document) : BuildState :=
  let st1 :=
    if substrB d.docname "reference/python" then
      let data := apiVisit d.tree
      if data ≠ [] then { st with all_api_classes := st.all_api_classes ++ data } else st
    else st
  if d.suffix = ".ipynb" ∨ d.suffix = ".md" then
    let cbs := codeBlocksOf d.tree
    if cbs ≠ [] then
      { st1 with all_code_blocks := dictInsertBlocks st1.all_code_blocks d.docname cbs }
    else st1
  else st1

/-- The record-modifying function of the innermost loop body. -/
def addCode (code : String) (r : APIRecord) : APIRecord :=
  if code ∈ r.examples then r else { r with examples := r.examples ++ [code] }

/-- First-entry association lookup (Python `m[k]`). -/
def lookupSN : List (String × Nat) → String → Option Nat
  | [], _ => none
  | (k2, v) :: m, k => if k2 = k then some v else lookupSN m k

/-- The index (counting from `i`) of the last occurrence of `k` in the
name list, if any. -/
def lastIdxFrom : Nat → List String → String → Option Nat
  | _, [], _ => none
  | i, s :: rest, k =>
    match lastIdxFrom (i + 1) rest k with
    | some v => some v
    | none => if s = k then some i else none

/-- The short-name list the lookup is built from. -/
def shortNames (api : List APIRecord) : List String :=
  api.map (fun r => shortName r.class_name)

/-- Claim side, from the spec's words: the parameter record of one
list item — the name is the first `strong` node's text, the type is
the first `emphasis` node's text or `"Any"` when no emphasis node
exists, the description is the trimmed text after the first en dash of
the remaining paragraph text (the paragraph with those two inline
subtrees removed), and an item with an empty name (or no paragraph)
contributes nothing. -/
def specItemParam (li : DocNode) : Option ParameterRecord :=
  match findFirstPath isParagraphNode li with
  | none => none
  | some pq =>
    match getAt pq li with
    | none => none
    | some para =>
      let name :=
        match findFirstPath isStrongNode para with
        | some q => (match getAt q para with | some t => astext t | none => "")
        | none => ""
      if name = "" then none
      else
        some { name := name,
               type_str :=
                 match findFirstPath isEmphasisNode para with
                 | some q => (match getAt q para with | some t => astext t | none => "Any")
                 | none => "Any",
               description := descAfterDash (astext (removeFirstStrongEmph para)) }

/-- Claim side: the spec's "remove both inline nodes from the
paragraph before reading the remainder", as a mutation of the item —
the item with its first paragraph replaced by that paragraph minus its
first `strong` and first `emphasis` subtrees. -/
def specMutateItem (li : DocNode) : DocNode :=
  match findFirstPath isParagraphNode li with
  | none => li
  | some pq =>
    match getAt pq li with
    | none => li
    | some para => replaceAt pq (removeFirstStrongEmph para) li

/-- Claim side: the amended per-field contract — the collected list
items are processed in order against the *evolving* body: each item,
as it stands when reached (the inline-node removals of earlier items
persisting), contributes the record `specItemParam` describes, and its
first `strong` and `emphasis` are then removed before the next item is
read. -/
def specFold : DocNode → List (List Nat) → List ParameterRecord × DocNode
  | b, [] => ([], b)
  | b, q :: qs =>
    match getAt q b with
    | none => specFold b qs
    | some li =>
      let rest := specFold (replaceAt q (specMutateItem li) b) qs
      ((match specItemParam li with | some r => r :: rest.1 | none => rest.1), rest.2)

/-! ## Characterization of the word-boundary search -/

lemma lastPrev_spec (l : List Char) :
    ∀ prev, lastPrev l prev = (match l.getLast? with | some c => some c | none => prev) := by
  induction l with
  | nil => intro prev; rfl
  | cons c l ih =>
    intro prev
    show lastPrev l (some c) = _
    rw [ih (some c)]
    cases l with
    | nil => rfl
    | cons x xs =>
      rw [List.getLast?_cons_cons]
      obtain ⟨y, hy⟩ : ∃ y, (x :: xs).getLast? = some y :=
        ⟨_, List.getLast?_eq_getLast _ (by simp)⟩
      rw [hy]

lemma lastPrev_none (l : List Char) : lastPrev l none = l.getLast? := by
  rw [lastPrev_spec]
  cases h : l.getLast? <;> rfl

lemma matchHere_iff (s : List Char) (hne : s ≠ []) (hw : ∀ c ∈ s, isWordChar c = true)
    (prev : Option Char) (code : List Char) :
    matchHere s prev code = true ↔
      ∃ post, code = s ++ post ∧ isWordOpt prev = false ∧ isWordOpt post.head? = false := by
  cases s with
  | nil => exact absurd rfl hne
  | cons a s2 =>
    have hhead : isWordOpt (some a) = true := hw a (List.mem_cons_self a s2)
    have hlastsome : (a :: s2).getLast? = some ((a :: s2).getLast (by simp)) :=
      List.getLast?_eq_getLast _ (by simp)
    have hlastw : isWordOpt (some ((a :: s2).getLast (by simp))) = true :=
      hw _ (List.getLast_mem _)
    have hexp : matchHere (a :: s2) prev code =
        ((a :: s2).isPrefixOf code && !isWordOpt prev &&
          !isWordOpt (code.drop (a :: s2).length).head?) := by
      simp only [matchHere, List.head?_cons, hlastsome]
      rw [hhead, hlastw]
      cases isWordOpt prev <;>
        cases isWordOpt (code.drop (a :: s2).length).head? <;> rfl
    rw [hexp]
    simp only [Bool.and_eq_true, Bool.not_eq_true']
    constructor
    · rintro ⟨⟨hp, h1⟩, h2⟩
      obtain ⟨post, hpost⟩ := List.isPrefixOf_iff_prefix.mp hp
      refine ⟨post, hpost.symm, h1, ?h2⟩
      rwa [← hpost, List.drop_left] at h2
    · rintro ⟨post, rfl, h1, h2⟩
      exact ⟨⟨List.isPrefixOf_iff_prefix.mpr ⟨post, rfl⟩, h1⟩, by rwa [List.drop_left]⟩

lemma searchAux_iff (s : List Char) (hne : s ≠ []) (hw : ∀ c ∈ s, isWordChar c = true) :
    ∀ (code : List Char) (prev : Option Char),
      searchAux s prev code = true ↔
        ∃ pre post, code = pre ++ s ++ post ∧
          isWordOpt (lastPrev pre prev) = false ∧ isWordOpt post.head? = false := by
  intro code
  induction code with
  | nil =>
    intro prev
    show matchHere s prev [] = true ↔ _
    rw [matchHere_iff s hne hw]
    constructor
    · rintro ⟨post, hp, -, -⟩
      exact absurd (List.append_eq_nil.mp hp.symm).1 hne
    · rintro ⟨pre, post, hp, -, -⟩
      rcases List.append_eq_nil.mp ((List.append_assoc pre s post ▸ hp).symm) with ⟨-, h2⟩
      exact absurd (List.append_eq_nil.mp h2).1 hne
  | cons c rest ih =>
    intro prev
    show (matchHere s prev (c :: rest) || searchAux s (some c) rest) = true ↔ _
    rw [Bool.or_eq_true, matchHere_iff s hne hw, ih (some c)]
    constructor
    · rintro (⟨post, hpost, h1, h2⟩ | ⟨pre, post, hrest, h1, h2⟩)
      · exact ⟨[], post, by simpa using hpost, by simpa using h1, h2⟩
      · exact ⟨c :: pre, post, by simp [hrest], h1, h2⟩
    · rintro ⟨pre, post, hsplit, h1, h2⟩
      cases pre with
      | nil => exact Or.inl ⟨post, by simpa using hsplit, by simpa using h1, h2⟩
      | cons c2 pre2 =>
        have hc : c2 = c ∧ rest = pre2 ++ s ++ post := by
          have := hsplit
          simp only [List.cons_append, List.cons.injEq] at this
          exact ⟨this.1.symm, this.2⟩
        obtain ⟨rfl, hr⟩ := hc
        exact Or.inr ⟨pre2, post, hr, h1, h2⟩

/-- The regex search of `finish` line 75 succeeds exactly when the
short name has a standalone, word-boundary-delimited occurrence in the
code block (for a nonempty short name made of word characters — i.e.
an identifier, which short names of Python classes always are). -/
lemma searchWB_iff_standalone (sS B : String) (hne : sS.data ≠ [])
    (hw : ∀ c ∈ sS.data, isWordChar c = true) :
    searchWB sS B = true ↔ StandaloneOcc sS B := by
  unfold searchWB StandaloneOcc
  rw [searchAux_iff sS.data hne hw B.data none]
  constructor
  · rintro ⟨pre, post, h, h1, h2⟩
    exact ⟨pre, post, h, by rwa [lastPrev_none] at h1, h2⟩
  · rintro ⟨pre, post, h, h1, h2⟩
    exact ⟨pre, post, h, by rwa [lastPrev_none], h2⟩

/-! ## Frame and membership lemmas for the linker -/

lemma updateAt_getElem? (f : APIRecord → APIRecord) (l : List APIRecord) :
    ∀ i j : Nat, (updateAt i f l)[j]? = if i = j then l[j]?.map f else l[j]? := by
  induction l with
  | nil => intro i j; cases i <;> simp [updateAt]
  | cons r rs ih =>
    intro i j
    cases i with
    | zero =>
      cases j with
      | zero => simp [updateAt]
      | succ j2 => simp [updateAt]
    | succ i2 =>
      cases j with
      | zero => simp [updateAt]
      | succ j2 =>
        rw [show updateAt (i2 + 1) f (r :: rs) = r :: updateAt i2 f rs from rfl,
          List.getElem?_cons_succ, List.getElem?_cons_succ, ih i2 j2]
        by_cases hij : i2 = j2 <;> simp [hij]

lemma updateAt_length (f : APIRecord → APIRecord) (l : List APIRecord) :
    ∀ i : Nat, (updateAt i f l).length = l.length := by
  induction l with
  | nil => intro i; cases i <;> rfl
  | cons r rs ih =>
    intro i
    cases i with
    | zero => rfl
    | succ i2 =>
      show (updateAt i2 f rs).length + 1 = _
      rw [ih i2]
      rfl

lemma updateAt_eq_self (f : APIRecord → APIRecord) (l : List APIRecord) (i : Nat)
    (h : ∀ r, l[i]? = some r → f r = r) : updateAt i f l = l := by
  induction l generalizing i with
  | nil => cases i <;> rfl
  | cons r rs ih =>
    cases i with
    | zero =>
      show f r :: rs = r :: rs
      rw [h r (by simp)]
    | succ i2 =>
      show r :: updateAt i2 f rs = r :: rs
      rw [ih i2 (fun r2 h2 => h r2 (by simpa using h2))]

lemma exAt_some (st : List APIRecord) (j : Nat) (r : APIRecord) (h : st[j]? = some r) :
    exAt st j = r.examples := by
  unfold exAt
  rw [h]

lemma exAt_none (st : List APIRecord) (j : Nat) (h : st[j]? = none) : exAt st j = [] := by
  unfold exAt
  rw [h]


lemma linkCodeEntry_eq (code : String) (st : List APIRecord) (e : String × Nat) :
    linkCodeEntry code st e =
      if searchWB e.1 code = true then updateAt e.2 (addCode code) st else st := by
  unfold linkCodeEntry addCode
  split <;> rfl

lemma addCode_otherFields (code : String) (r : APIRecord) :
    otherFields (addCode code r) = otherFields r := by
  unfold addCode
  split <;> rfl

lemma addCode_examples (code : String) (r : APIRecord) :
    (addCode code r).examples =
      if code ∈ r.examples then r.examples else r.examples ++ [code] := by
  unfold addCode
  split <;> simp_all

lemma linkCodeEntry_length (code : String) (st : List APIRecord) (e : String × Nat) :
    (linkCodeEntry code st e).length = st.length := by
  rw [linkCodeEntry_eq]
  split
  · exact updateAt_length _ _ _
  · rfl

lemma linkCodeEntry_otherFields (code : String) (st : List APIRecord) (e : String × Nat)
    (j : Nat) :
    (linkCodeEntry code st e)[j]?.map otherFields = st[j]?.map otherFields := by
  rw [linkCodeEntry_eq]
  split
  · rw [updateAt_getElem?]
    split
    · rw [Option.map_map]
      cases st[j]? with
      | none => rfl
      | some r =>
        simp only [Option.map_some', Function.comp_apply, addCode_otherFields]
    · rfl
  · rfl

/-- Full characterization of one inner-loop step: the examples list at
index `j` gains `code` (at the end) exactly when the entry points at
`j`, the search matched, the index is in range and the code is not
already present; otherwise it is unchanged. -/
lemma linkCodeEntry_exAt (code : String) (st : List APIRecord) (e : String × Nat) (j : Nat) :
    exAt (linkCodeEntry code st e) j =
      if searchWB e.1 code = true ∧ e.2 = j ∧ j < st.length ∧ code ∉ exAt st j
      then exAt st j ++ [code] else exAt st j := by
  rw [linkCodeEntry_eq]
  by_cases hs : searchWB e.1 code = true
  case neg => rw [if_neg hs, if_neg (fun hcond => hs hcond.1)]
  case pos =>
  rw [if_pos hs]
  by_cases hej : e.2 = j
  case neg =>
    have h1 : (updateAt e.2 (addCode code) st)[j]? = st[j]? := by
      rw [updateAt_getElem?, if_neg hej]
    have h2 : exAt (updateAt e.2 (addCode code) st) j = exAt st j := by
      unfold exAt
      rw [h1]
    rw [h2, if_neg (fun hcond => hej hcond.2.1)]
  case pos =>
  cases hj : st[j]? with
  | none =>
    have hlen : st.length ≤ j := List.getElem?_eq_none_iff.mp hj
    have h1 : (updateAt e.2 (addCode code) st)[j]? = none := by
      rw [updateAt_getElem?, if_pos hej, hj]
      rfl
    rw [exAt_none _ _ h1, exAt_none _ _ hj,
      if_neg (fun hcond => absurd hcond.2.2.1 (by omega))]
  | some r =>
    obtain ⟨hlt, -⟩ := List.getElem?_eq_some.mp hj
    have h1 : (updateAt e.2 (addCode code) st)[j]? = some (addCode code r) := by
      rw [updateAt_getElem?, if_pos hej, hj]
      rfl
    rw [exAt_some _ _ _ h1, addCode_examples, exAt_some _ _ _ hj]
    by_cases hc : code ∈ r.examples
    · rw [if_pos hc, if_neg (fun hcond => hcond.2.2.2 hc)]
    · rw [if_neg hc, if_pos ⟨hs, hej, hlt, hc⟩]

lemma linkCodeEntry_exAt_mono (code c : String) (st : List APIRecord) (e : String × Nat)
    (j : Nat) (h : c ∈ exAt st j) : c ∈ exAt (linkCodeEntry code st e) j := by
  rw [linkCodeEntry_exAt]
  split
  · exact List.mem_append_left _ h
  · exact h

lemma linkCodeEntry_exAt_sound (code c : String) (st : List APIRecord) (e : String × Nat)
    (j : Nat) (h : c ∈ exAt (linkCodeEntry code st e) j) :
    c ∈ exAt st j ∨ (c = code ∧ e.2 = j ∧ searchWB e.1 code = true) := by
  rw [linkCodeEntry_exAt] at h
  revert h
  split <;> rename_i hcond
  · intro h
    rcases List.mem_append.mp h with h2 | h2
    · exact Or.inl h2
    · exact Or.inr ⟨List.mem_singleton.mp h2, hcond.2.1, hcond.1⟩
  · exact Or.inl

lemma linkCodeEntry_establish (code : String) (st : List APIRecord) (e : String × Nat)
    (hs : searchWB e.1 code = true) (hlt : e.2 < st.length) :
    code ∈ exAt (linkCodeEntry code st e) e.2 := by
  rw [linkCodeEntry_exAt]
  by_cases hc : code ∈ exAt st e.2
  · rw [if_neg (by tauto)]
    exact hc
  · rw [if_pos ⟨hs, rfl, hlt, hc⟩]
    exact List.mem_append_right _ (List.mem_singleton.mpr rfl)

lemma linkCodeEntry_nodup (code : String) (st : List APIRecord) (e : String × Nat) (j : Nat)
    (h : (exAt st j).Nodup) : (exAt (linkCodeEntry code st e) j).Nodup := by
  rw [linkCodeEntry_exAt]
  split <;> rename_i hcond
  · exact List.Nodup.append h (List.nodup_singleton code)
      (List.disjoint_singleton.mpr hcond.2.2.2)
  · exact h

lemma linkCodeEntry_untouched (code : String) (st : List APIRecord) (e : String × Nat)
    (j : Nat) (h : e.2 ≠ j) : exAt (linkCodeEntry code st e) j = exAt st j := by
  rw [linkCodeEntry_exAt, if_neg (by tauto)]

lemma linkCodeEntry_stable (code : String) (st : List APIRecord) (e : String × Nat)
    (h : searchWB e.1 code = true → code ∈ exAt st e.2) : linkCodeEntry code st e = st := by
  rw [linkCodeEntry_eq]
  split <;> rename_i hs
  · refine updateAt_eq_self _ _ _ (fun r hr => ?done)
    have hmem := h hs
    rw [exAt_some _ _ _ hr] at hmem
    unfold addCode
    rw [if_pos hmem]
  · rfl

/-! ## Lifting through the three loop levels -/

lemma linkEntries_length (m : List (String × Nat)) (code : String) :
    ∀ st : List APIRecord, (linkEntries m st code).length = st.length := by
  induction m with
  | nil => intro st; rfl
  | cons e es ih =>
    intro st
    show (linkEntries es (linkCodeEntry code st e) code).length = _
    rw [ih, linkCodeEntry_length]

lemma linkCodes_length (m : List (String × Nat)) (codes : List String) :
    ∀ st : List APIRecord, (linkCodes m st codes).length = st.length := by
  induction codes with
  | nil => intro st; rfl
  | cons c cs ih =>
    intro st
    show (linkCodes m (linkEntries m st c) cs).length = _
    rw [ih, linkEntries_length]

lemma linkAll_length (m : List (String × Nat)) (blocks : List (String × List String)) :
    ∀ st : List APIRecord, (linkAll m st blocks).length = st.length := by
  induction blocks with
  | nil => intro st; rfl
  | cons b bs ih =>
    intro st
    show (linkAll m (linkCodes m st b.2) bs).length = _
    rw [ih, linkCodes_length]

lemma linkEntries_otherFields (m : List (String × Nat)) (code : String) (j : Nat) :
    ∀ st : List APIRecord,
      (linkEntries m st code)[j]?.map otherFields = st[j]?.map otherFields := by
  induction m with
  | nil => intro st; rfl
  | cons e es ih =>
    intro st
    show (linkEntries es (linkCodeEntry code st e) code)[j]?.map otherFields = _
    rw [ih, linkCodeEntry_otherFields]

lemma linkCodes_otherFields (m : List (String × Nat)) (codes : List String) (j : Nat) :
    ∀ st : List APIRecord,
      (linkCodes m st codes)[j]?.map otherFields = st[j]?.map otherFields := by
  induction codes with
  | nil => intro st; rfl
  | cons c cs ih =>
    intro st
    show (linkCodes m (linkEntries m st c) cs)[j]?.map otherFields = _
    rw [ih, linkEntries_otherFields]

lemma linkAll_otherFields (m : List (String × Nat)) (blocks : List (String × List String))
    (j : Nat) :
    ∀ st : List APIRecord,
      (linkAll m st blocks)[j]?.map otherFields = st[j]?.map otherFields := by
  induction blocks with
  | nil => intro st; rfl
  | cons b bs ih =>
    intro st
    show (linkAll m (linkCodes m st b.2) bs)[j]?.map otherFields = _
    rw [ih, linkCodes_otherFields]

lemma linkEntries_exAt_mono (m : List (String × Nat)) (code c : String) (j : Nat) :
    ∀ st : List APIRecord, c ∈ exAt st j → c ∈ exAt (linkEntries m st code) j := by
  induction m with
  | nil => intro st h; exact h
  | cons e es ih =>
    intro st h
    exact ih (linkCodeEntry code st e) (linkCodeEntry_exAt_mono code c st e j h)

lemma linkCodes_exAt_mono (m : List (String × Nat)) (codes : List String) (c : String)
    (j : Nat) :
    ∀ st : List APIRecord, c ∈ exAt st j → c ∈ exAt (linkCodes m st codes) j := by
  induction codes with
  | nil => intro st h; exact h
  | cons c2 cs ih =>
    intro st h
    exact ih (linkEntries m st c2) (linkEntries_exAt_mono m c2 c j st h)

lemma linkAll_exAt_mono (m : List (String × Nat)) (blocks : List (String × List String))
    (c : String) (j : Nat) :
    ∀ st : List APIRecord, c ∈ exAt st j → c ∈ exAt (linkAll m st blocks) j := by
  induction blocks with
  | nil => intro st h; exact h
  | cons b bs ih =>
    intro st h
    exact ih (linkCodes m st b.2) (linkCodes_exAt_mono m b.2 c j st h)

lemma linkEntries_exAt_sound (m : List (String × Nat)) (code c : String) (j : Nat) :
    ∀ st : List APIRecord, c ∈ exAt (linkEntries m st code) j →
      c ∈ exAt st j ∨ (c = code ∧ ∃ s, (s, j) ∈ m ∧ searchWB s code = true) := by
  induction m with
  | nil => intro st h; exact Or.inl h
  | cons e es ih =>
    intro st h
    rcases ih (linkCodeEntry code st e) h with h2 | ⟨rfl, s, hm, hsr⟩
    · rcases linkCodeEntry_exAt_sound code c st e j h2 with h3 | ⟨rfl, hj, hsr⟩
      · exact Or.inl h3
      · exact Or.inr ⟨rfl, e.1, by rw [← hj]; exact List.mem_cons_self _ _, hsr⟩
    · exact Or.inr ⟨rfl, s, List.mem_cons_of_mem e hm, hsr⟩

lemma linkCodes_exAt_sound (m : List (String × Nat)) (codes : List String) (c : String)
    (j : Nat) :
    ∀ st : List APIRecord, c ∈ exAt (linkCodes m st codes) j →
      c ∈ exAt st j ∨ (c ∈ codes ∧ ∃ s, (s, j) ∈ m ∧ searchWB s c = true) := by
  induction codes with
  | nil => intro st h; exact Or.inl h
  | cons c2 cs ih =>
    intro st h
    rcases ih (linkEntries m st c2) h with h2 | ⟨hc, s, hm, hsr⟩
    · rcases linkEntries_exAt_sound m c2 c j st h2 with h3 | ⟨rfl, s, hm, hsr⟩
      · exact Or.inl h3
      · exact Or.inr ⟨List.mem_cons_self _ _, s, hm, hsr⟩
    · exact Or.inr ⟨List.mem_cons_of_mem c2 hc, s, hm, hsr⟩

lemma linkAll_exAt_sound (m : List (String × Nat)) (blocks : List (String × List String))
    (c : String) (j : Nat) :
    ∀ st : List APIRecord, c ∈ exAt (linkAll m st blocks) j →
      c ∈ exAt st j ∨ (c ∈ allCodes blocks ∧ ∃ s, (s, j) ∈ m ∧ searchWB s c = true) := by
  induction blocks with
  | nil => intro st h; exact Or.inl h
  | cons b bs ih =>
    intro st h
    rcases ih (linkCodes m st b.2) h with h2 | ⟨hc, s, hm, hsr⟩
    · rcases linkCodes_exAt_sound m b.2 c j st h2 with h3 | ⟨hc, s, hm, hsr⟩
      · exact Or.inl h3
      · refine Or.inr ⟨?mem, s, hm, hsr⟩
        unfold allCodes
        exact List.mem_flatten.mpr ⟨b.2, by simp, hc⟩
    · refine Or.inr ⟨?mem2, s, hm, hsr⟩
      unfold allCodes at hc ⊢
      rcases List.mem_flatten.mp hc with ⟨l, hl, hcl⟩
      exact List.mem_flatten.mpr ⟨l, by simp [hl], hcl⟩

lemma linkEntries_establish (m : List (String × Nat)) (code : String) (s : String) (j : Nat)
    (hm : (s, j) ∈ m) (hs : searchWB s code = true) :
    ∀ st : List APIRecord, j < st.length → code ∈ exAt (linkEntries m st code) j := by
  induction m with
  | nil => exact absurd hm (List.not_mem_nil _)
  | cons e es ih =>
    intro st hlt
    rcases List.mem_cons.mp hm with rfl | hm2
    · refine linkEntries_exAt_mono es code code j (linkCodeEntry code st (s, j)) ?est
      exact linkCodeEntry_establish code st (s, j) hs hlt
    · exact ih hm2 (linkCodeEntry code st e) (by rwa [linkCodeEntry_length])

lemma linkCodes_establish (m : List (String × Nat)) (codes : List String) (code : String)
    (s : String) (j : Nat) (hm : (s, j) ∈ m) (hc : code ∈ codes)
    (hs : searchWB s code = true) :
    ∀ st : List APIRecord, j < st.length → code ∈ exAt (linkCodes m st codes) j := by
  induction codes with
  | nil => exact absurd hc (List.not_mem_nil _)
  | cons c2 cs ih =>
    intro st hlt
    rcases List.mem_cons.mp hc with rfl | hc2
    · refine linkCodes_exAt_mono m cs code j (linkEntries m st code) ?est
      exact linkEntries_establish m code s j hm hs st hlt
    · exact ih hc2 (linkEntries m st c2) (by rwa [linkEntries_length])

lemma linkAll_establish (m : List (String × Nat)) (blocks : List (String × List String))
    (code : String) (s : String) (j : Nat) (hm : (s, j) ∈ m) (hc : code ∈ allCodes blocks)
    (hs : searchWB s code = true) :
    ∀ st : List APIRecord, j < st.length → code ∈ exAt (linkAll m st blocks) j := by
  induction blocks with
  | nil => exact absurd hc (List.not_mem_nil _)
  | cons b bs ih =>
    intro st hlt
    have hc2 : code ∈ b.2 ∨ code ∈ allCodes bs := by
      unfold allCodes at hc
      rcases List.mem_flatten.mp hc with ⟨l, hl, hcl⟩
      rcases List.mem_map.mp hl with ⟨p, hp, rfl⟩
      rcases List.mem_cons.mp hp with rfl | hp2
      · exact Or.inl hcl
      · exact Or.inr (List.mem_flatten.mpr ⟨p.2, List.mem_map.mpr ⟨p, hp2, rfl⟩, hcl⟩)
    rcases hc2 with hcb | hcbs
    · refine linkAll_exAt_mono m bs code j (linkCodes m st b.2) ?est
      exact linkCodes_establish m b.2 code s j hm hcb hs st hlt
    · exact ih hcbs (linkCodes m st b.2) (by rwa [linkCodes_length])

lemma linkEntries_nodup (m : List (String × Nat)) (code : String) (j : Nat) :
    ∀ st : List APIRecord, (exAt st j).Nodup → (exAt (linkEntries m st code) j).Nodup := by
  induction m with
  | nil => intro st h; exact h
  | cons e es ih =>
    intro st h
    exact ih (linkCodeEntry code st e) (linkCodeEntry_nodup code st e j h)

lemma linkCodes_nodup (m : List (String × Nat)) (codes : List String) (j : Nat) :
    ∀ st : List APIRecord, (exAt st j).Nodup → (exAt (linkCodes m st codes) j).Nodup := by
  induction codes with
  | nil => intro st h; exact h
  | cons c cs ih =>
    intro st h
    exact ih (linkEntries m st c) (linkEntries_nodup m c j st h)

lemma linkAll_nodup (m : List (String × Nat)) (blocks : List (String × List String))
    (j : Nat) :
    ∀ st : List APIRecord, (exAt st j).Nodup → (exAt (linkAll m st blocks) j).Nodup := by
  induction blocks with
  | nil => intro st h; exact h
  | cons b bs ih =>
    intro st h
    exact ih (linkCodes m st b.2) (linkCodes_nodup m b.2 j st h)

lemma linkEntries_untouched (m : List (String × Nat)) (code : String) (j : Nat)
    (hj : ∀ s, (s, j) ∉ m) :
    ∀ st : List APIRecord, exAt (linkEntries m st code) j = exAt st j := by
  induction m with
  | nil => intro st; rfl
  | cons e es ih =>
    intro st
    have he : e.2 ≠ j := by
      intro hej
      exact hj e.1 (by rw [← hej]; exact List.mem_cons_self _ _)
    have ihj : ∀ s, (s, j) ∉ es := fun s hmem => hj s (List.mem_cons_of_mem e hmem)
    show exAt (linkEntries es (linkCodeEntry code st e) code) j = _
    rw [ih ihj, linkCodeEntry_untouched code st e j he]

lemma linkCodes_untouched (m : List (String × Nat)) (codes : List String) (j : Nat)
    (hj : ∀ s, (s, j) ∉ m) :
    ∀ st : List APIRecord, exAt (linkCodes m st codes) j = exAt st j := by
  induction codes with
  | nil => intro st; rfl
  | cons c cs ih =>
    intro st
    show exAt (linkCodes m (linkEntries m st c) cs) j = _
    rw [ih, linkEntries_untouched m c j hj]

lemma linkAll_untouched (m : List (String × Nat)) (blocks : List (String × List String))
    (j : Nat) (hj : ∀ s, (s, j) ∉ m) :
    ∀ st : List APIRecord, exAt (linkAll m st blocks) j = exAt st j := by
  induction blocks with
  | nil => intro st; rfl
  | cons b bs ih =>
    intro st
    show exAt (linkAll m (linkCodes m st b.2) bs) j = _
    rw [ih, linkCodes_untouched m b.2 j hj]

lemma linkEntries_stable (m : List (String × Nat)) (code : String) (st : List APIRecord)
    (h : ∀ s j, (s, j) ∈ m → searchWB s code = true → code ∈ exAt st j) :
    linkEntries m st code = st := by
  induction m with
  | nil => rfl
  | cons e es ih =>
    have he : linkCodeEntry code st e = st :=
      linkCodeEntry_stable code st e (fun hs => h e.1 e.2 (List.mem_cons_self _ _) hs)
    show linkEntries es (linkCodeEntry code st e) code = st
    rw [he]
    exact ih (fun s j hm hs => h s j (List.mem_cons_of_mem e hm) hs)

lemma linkCodes_stable (m : List (String × Nat)) (codes : List String) (st : List APIRecord)
    (h : ∀ s j, (s, j) ∈ m → ∀ code ∈ codes, searchWB s code = true → code ∈ exAt st j) :
    linkCodes m st codes = st := by
  induction codes with
  | nil => rfl
  | cons c cs ih =>
    have hc : linkEntries m st c = st :=
      linkEntries_stable m c st
        (fun s j hm hs => h s j hm c (List.mem_cons_self _ _) hs)
    show linkCodes m (linkEntries m st c) cs = st
    rw [hc]
    exact ih (fun s j hm code hcode hs => h s j hm code (List.mem_cons_of_mem c hcode) hs)

lemma linkAll_stable (m : List (String × Nat)) (blocks : List (String × List String))
    (st : List APIRecord)
    (h : ∀ s j, (s, j) ∈ m → ∀ code ∈ allCodes blocks, searchWB s code = true →
      code ∈ exAt st j) :
    linkAll m st blocks = st := by
  induction blocks with
  | nil => rfl
  | cons b bs ih =>
    have hmemb : ∀ code ∈ b.2, code ∈ allCodes (b :: bs) := by
      intro code hcode
      unfold allCodes
      exact List.mem_flatten.mpr ⟨b.2, by simp, hcode⟩
    have hmembs : ∀ code ∈ allCodes bs, code ∈ allCodes (b :: bs) := by
      intro code hcode
      unfold allCodes at hcode ⊢
      rcases List.mem_flatten.mp hcode with ⟨l, hl, hcl⟩
      exact List.mem_flatten.mpr ⟨l, by simp [hl], hcl⟩
    have hb : linkCodes m st b.2 = st :=
      linkCodes_stable m b.2 st
        (fun s j hm code hcode hs => h s j hm code (hmemb code hcode) hs)
    show linkAll m (linkCodes m st b.2) bs = st
    rw [hb]
    exact ih (fun s j hm code hcode hs => h s j hm code (hmembs code hcode) hs)


/-! ## The linking lookup: Python dict semantics of `class_map` -/


lemma lookupSN_nil (k : String) : lookupSN [] k = none := rfl

lemma lookupSN_cons (k2 : String) (v : Nat) (m : List (String × Nat)) (k : String) :
    lookupSN ((k2, v) :: m) k = if k2 = k then some v else lookupSN m k := rfl

lemma lookupSN_mem (m : List (String × Nat)) (k : String) (v : Nat)
    (h : lookupSN m k = some v) : (k, v) ∈ m := by
  induction m with
  | nil => exact absurd h (by simp [lookupSN_nil])
  | cons e m ih =>
    obtain ⟨k2, w⟩ := e
    rw [lookupSN_cons] at h
    split at h
    · rename_i hk
      obtain ⟨rfl, rfl⟩ : k2 = k ∧ w = v := ⟨hk, by injection h⟩
      exact List.mem_cons_self _ _
    · exact List.mem_cons_of_mem _ (ih h)

lemma mem_lookupSN (m : List (String × Nat)) (hnd : (m.map Prod.fst).Nodup) (k : String)
    (v : Nat) (h : (k, v) ∈ m) : lookupSN m k = some v := by
  induction m with
  | nil => exact absurd h (List.not_mem_nil _)
  | cons e m ih =>
    obtain ⟨k2, w⟩ := e
    have hnd2 : (m.map Prod.fst).Nodup := (List.nodup_cons.mp hnd).2
    have hk2 : k2 ∉ m.map Prod.fst := by
      have := (List.nodup_cons.mp hnd).1
      simpa using this
    rcases List.mem_cons.mp h with heq | hm
    · obtain ⟨rfl, rfl⟩ : k2 = k ∧ w = v :=
        ⟨(congrArg Prod.fst heq).symm, (congrArg Prod.snd heq).symm⟩
      rw [lookupSN_cons, if_pos rfl]
    · have hne : k2 ≠ k := by
        rintro rfl
        exact hk2 (List.mem_map.mpr ⟨(k2, v), hm, rfl⟩)
      rw [lookupSN_cons, if_neg hne]
      exact ih hnd2 hm

lemma lookupSN_isSome_of_key_mem (m : List (String × Nat)) (k : String) :
    ∀ p ∈ m, p.1 = k → ∃ w, lookupSN m k = some w := by
  induction m with
  | nil => intro p hp; exact absurd hp (List.not_mem_nil _)
  | cons e m ih =>
    intro p hp hk
    obtain ⟨k2, w⟩ := e
    rw [lookupSN_cons]
    by_cases h2 : k2 = k
    · rw [if_pos h2]
      exact ⟨w, rfl⟩
    · rw [if_neg h2]
      rcases List.mem_cons.mp hp with rfl | hm
      · exact absurd hk h2
      · exact ih p hm hk

lemma lookupSN_append (m m2 : List (String × Nat)) (k : String) :
    lookupSN (m ++ m2) k =
      (match lookupSN m k with | some v => some v | none => lookupSN m2 k) := by
  induction m with
  | nil => rw [List.nil_append, lookupSN_nil]
  | cons e m ih =>
    obtain ⟨k2, w⟩ := e
    rw [List.cons_append, lookupSN_cons, lookupSN_cons]
    by_cases h : k2 = k
    · rw [if_pos h, if_pos h]
    · rw [if_neg h, if_neg h, ih]

lemma lookupSN_overwrite (m : List (String × Nat)) (k : String) (v : Nat) (k2 : String) :
    lookupSN (m.map (fun p => if p.1 == k then (p.1, v) else p)) k2 =
      if k2 = k then (lookupSN m k).map (fun _ => v) else lookupSN m k2 := by
  induction m with
  | nil =>
    rw [List.map_nil, lookupSN_nil]
    split <;> rfl
  | cons e m ih =>
    obtain ⟨k3, w⟩ := e
    rw [List.map_cons]
    by_cases h3 : k3 = k <;> by_cases h32 : k3 = k2 <;> by_cases hk2 : k2 = k <;>
      simp_all [lookupSN_cons]

lemma any_false_lookupSN (m : List (String × Nat)) (k : String)
    (h : m.any (fun p => p.1 == k) = false) : lookupSN m k = none := by
  induction m with
  | nil => rfl
  | cons e m ih =>
    obtain ⟨k2, w⟩ := e
    rw [List.any_cons, Bool.or_eq_false_iff] at h
    rw [lookupSN_cons, if_neg (by simpa using h.1)]
    exact ih h.2

lemma lookupSN_dictInsert (m : List (String × Nat)) (k : String) (v : Nat) (k2 : String) :
    lookupSN (dictInsertNat m k v) k2 = if k2 = k then some v else lookupSN m k2 := by
  unfold dictInsertNat
  split <;> rename_i hany
  · rw [lookupSN_overwrite]
    by_cases hk2 : k2 = k
    · rw [if_pos hk2, if_pos hk2]
      obtain ⟨p, hp, hpk⟩ := List.any_eq_true.mp hany
      obtain ⟨w, hw⟩ := lookupSN_isSome_of_key_mem m k p hp (by simpa using hpk)
      rw [hw]
      rfl
    · rw [if_neg hk2, if_neg hk2]
  · rw [lookupSN_append]
    have hm : lookupSN m k = none :=
      any_false_lookupSN m k (by simp only [Bool.not_eq_true] at hany; exact hany)
    by_cases hk2 : k2 = k
    · rw [if_pos hk2]
      have hm2 : lookupSN m k2 = none := by rwa [hk2]
      rw [hm2, lookupSN_cons, if_pos hk2.symm]
    · rw [if_neg hk2]
      cases hl : lookupSN m k2 with
      | some w => rfl
      | none =>
        rw [lookupSN_cons, if_neg (fun h => hk2 h.symm), lookupSN_nil]

lemma classMapAux_lookup (k : String) :
    ∀ (ns : List String) (m : List (String × Nat)) (i : Nat),
      lookupSN (classMapAux m i ns) k =
        (match lastIdxFrom i ns k with | some v => some v | none => lookupSN m k) := by
  intro ns
  induction ns with
  | nil => intro m i; rfl
  | cons s rest ih =>
    intro m i
    show lookupSN (classMapAux (dictInsertNat m s i) (i + 1) rest) k = _
    rw [ih (dictInsertNat m s i) (i + 1)]
    cases hrec : lastIdxFrom (i + 1) rest k with
    | some v =>
      rw [show lastIdxFrom i (s :: rest) k = some v from by
        unfold lastIdxFrom
        rw [hrec]]
    | none =>
      rw [show lastIdxFrom i (s :: rest) k = (if s = k then some i else none) from by
        unfold lastIdxFrom
        rw [hrec]]
      by_cases hks : s = k
      · rw [lookupSN_dictInsert, if_pos hks.symm, if_pos hks]
      · rw [lookupSN_dictInsert, if_neg (fun h => hks h.symm), if_neg hks]

lemma lastIdxFrom_none (k : String) :
    ∀ (ns : List String) (i : Nat), lastIdxFrom i ns k = none →
      ∀ jj : Nat, ns[jj]? ≠ some k := by
  intro ns
  induction ns with
  | nil => intro i h jj; simp
  | cons s rest ih =>
    intro i h jj
    unfold lastIdxFrom at h
    revert h
    cases hrec : lastIdxFrom (i + 1) rest k with
    | some v => intro h; cases h
    | none =>
      intro h
      have hs : s ≠ k := by
        intro hsk
        rw [if_pos hsk] at h
        cases h
      cases jj with
      | zero =>
        simp only [List.getElem?_cons_zero]
        intro hc
        exact hs (by injection hc)
      | succ jj2 =>
        rw [List.getElem?_cons_succ]
        exact ih (i + 1) hrec jj2

lemma lastIdxFrom_some (k : String) :
    ∀ (ns : List String) (i v : Nat), lastIdxFrom i ns k = some v →
      ∃ jj : Nat, v = i + jj ∧ ns[jj]? = some k ∧
        ∀ jj2 : Nat, jj < jj2 → ns[jj2]? ≠ some k := by
  intro ns
  induction ns with
  | nil => intro i v h; cases h
  | cons s rest ih =>
    intro i v h
    unfold lastIdxFrom at h
    revert h
    cases hrec : lastIdxFrom (i + 1) rest k with
    | some w =>
      intro h
      have hwv : w = v := by injection h
      obtain ⟨jj, hjj, hget, hlast⟩ := ih (i + 1) w hrec
      refine ⟨jj + 1, by omega, by rwa [List.getElem?_cons_succ], ?_⟩
      intro jj2 hjj2
      cases jj2 with
      | zero => omega
      | succ jj3 =>
        rw [List.getElem?_cons_succ]
        exact hlast jj3 (by omega)
    | none =>
      intro h
      have hsk : s = k := by
        by_cases hsk : s = k
        · exact hsk
        · rw [if_neg hsk] at h
          cases h
      obtain rfl : i = v := by
        rw [if_pos hsk] at h
        injection h
      refine ⟨0, by omega, by simpa using congrArg some hsk, ?_⟩
      intro jj2 hjj2
      cases jj2 with
      | zero => omega
      | succ jj3 =>
        rw [List.getElem?_cons_succ]
        exact lastIdxFrom_none k rest (i + 1) hrec jj3

lemma lastIdxFrom_complete (k : String) :
    ∀ (ns : List String) (jj i : Nat), ns[jj]? = some k →
      ∃ v : Nat, lastIdxFrom i ns k = some v ∧ i + jj ≤ v := by
  intro ns
  induction ns with
  | nil => intro jj i h; simp at h
  | cons s rest ih =>
    intro jj i h
    cases jj with
    | zero =>
      have hsk : s = k := by
        simp only [List.getElem?_cons_zero] at h
        injection h
      unfold lastIdxFrom
      cases hrec : lastIdxFrom (i + 1) rest k with
      | some w =>
        obtain ⟨jj2, hjj2, -, -⟩ := lastIdxFrom_some k rest (i + 1) w hrec
        exact ⟨w, rfl, by omega⟩
      | none => exact ⟨i, by rw [if_pos hsk], by omega⟩
    | succ jj2 =>
      rw [List.getElem?_cons_succ] at h
      obtain ⟨v, hv, hle⟩ := ih jj2 (i + 1) h
      unfold lastIdxFrom
      rw [hv]
      exact ⟨v, rfl, by omega⟩

/-! ## Key uniqueness of the dict and derived `classMap` facts -/

lemma dictInsertNat_keys_nodup (m : List (String × Nat)) (k : String) (v : Nat)
    (h : (m.map Prod.fst).Nodup) : ((dictInsertNat m k v).map Prod.fst).Nodup := by
  unfold dictInsertNat
  split <;> rename_i hany
  · have hkeys : (m.map (fun p => if p.1 == k then (p.1, v) else p)).map Prod.fst =
        m.map Prod.fst := by
      rw [List.map_map]
      refine List.map_congr_left (fun p hp => ?e)
      simp only [Function.comp_apply]
      split <;> rfl
    rwa [hkeys]
  · rw [List.map_append]
    refine List.Nodup.append h (List.nodup_singleton k) ?disj
    intro x hx hxk
    have hxk2 : x = k := by simpa using hxk
    rcases List.mem_map.mp hx with ⟨p, hp, hpk⟩
    exact hany (List.any_eq_true.mpr ⟨p, hp, by simp [hpk, hxk2]⟩)

lemma classMapAux_keys_nodup :
    ∀ (ns : List String) (m : List (String × Nat)) (i : Nat),
      (m.map Prod.fst).Nodup → ((classMapAux m i ns).map Prod.fst).Nodup := by
  intro ns
  induction ns with
  | nil => intro m i h; exact h
  | cons s rest ih =>
    intro m i h
    exact ih (dictInsertNat m s i) (i + 1) (dictInsertNat_keys_nodup m s i h)

lemma classMap_keys_nodup (api : List APIRecord) :
    ((classMap api).map Prod.fst).Nodup :=
  classMapAux_keys_nodup _ [] 0 List.nodup_nil


lemma classMap_lookup (api : List APIRecord) (k : String) :
    lookupSN (classMap api) k =
      (match lastIdxFrom 0 (shortNames api) k with | some v => some v | none => none) := by
  show lookupSN (classMapAux [] 0 (shortNames api)) k = _
  rw [classMapAux_lookup k (shortNames api) [] 0]
  cases lastIdxFrom 0 (shortNames api) k <;> rfl

lemma classMap_mem_lookup (api : List APIRecord) (s : String) (v : Nat) :
    (s, v) ∈ classMap api ↔ lookupSN (classMap api) s = some v :=
  ⟨mem_lookupSN _ (classMap_keys_nodup api) s v, lookupSN_mem _ s v⟩

lemma classMap_mem_lastIdx (api : List APIRecord) (s : String) (v : Nat)
    (h : (s, v) ∈ classMap api) : lastIdxFrom 0 (shortNames api) s = some v := by
  have h2 := (classMap_mem_lookup api s v).mp h
  rw [classMap_lookup] at h2
  revert h2
  cases hl : lastIdxFrom 0 (shortNames api) s with
  | some w => intro h2; injection h2 with h3; rw [h3]
  | none => intro h2; cases h2

lemma cm_bound (api : List APIRecord) (s : String) (v : Nat)
    (h : (s, v) ∈ classMap api) : v < api.length := by
  obtain ⟨jj, hjj, hget, -⟩ := lastIdxFrom_some s _ 0 v (classMap_mem_lastIdx api s v h)
  have hlt : jj < (shortNames api).length := (List.getElem?_eq_some.mp hget).1
  unfold shortNames at hlt
  rw [List.length_map] at hlt
  omega

lemma cm_short (api : List APIRecord) (s : String) (v : Nat)
    (h : (s, v) ∈ classMap api) :
    ∃ r, api[v]? = some r ∧ shortName r.class_name = s := by
  obtain ⟨jj, hjj, hget, -⟩ := lastIdxFrom_some s _ 0 v (classMap_mem_lastIdx api s v h)
  obtain rfl : v = jj := by omega
  unfold shortNames at hget
  rw [List.getElem?_map] at hget
  cases hr : api[v]? with
  | none => rw [hr] at hget; cases hget
  | some r =>
    rw [hr] at hget
    exact ⟨r, rfl, by injection hget⟩

lemma cm_last (api : List APIRecord) (s : String) (v : Nat)
    (h : (s, v) ∈ classMap api) :
    ∀ (kk : Nat) (r : APIRecord), v < kk → api[kk]? = some r →
      shortName r.class_name ≠ s := by
  obtain ⟨jj, hjj, -, hlast⟩ := lastIdxFrom_some s _ 0 v (classMap_mem_lastIdx api s v h)
  obtain rfl : v = jj := by omega
  intro kk r hlt hr hshort
  refine hlast kk hlt ?c
  unfold shortNames
  rw [List.getElem?_map, hr]
  rw [Option.map_some']
  exact congrArg some hshort

lemma cm_complete (api : List APIRecord) (i : Nat) (r : APIRecord)
    (h : api[i]? = some r) :
    ∃ v, i ≤ v ∧ (shortName r.class_name, v) ∈ classMap api := by
  have hget : (shortNames api)[i]? = some (shortName r.class_name) := by
    unfold shortNames
    rw [List.getElem?_map, h]
    rfl
  obtain ⟨v, hv, hle⟩ := lastIdxFrom_complete _ (shortNames api) i 0 hget
  refine ⟨v, by omega, ?mem⟩
  refine (classMap_mem_lookup api _ v).mpr ?look
  rw [classMap_lookup, hv]

/-! ## The lookup is unchanged by linking -/

lemma map_eq_of_otherFields (o1 o2 : Option APIRecord)
    (h : o1.map otherFields = o2.map otherFields) :
    o1.map (fun r => shortName r.class_name) = o2.map (fun r => shortName r.class_name) := by
  cases o1 <;> cases o2 <;> simp_all [otherFields, Prod.ext_iff]

lemma linkAll_shortNames (m : List (String × Nat)) (blocks : List (String × List String))
    (st : List APIRecord) : shortNames (linkAll m st blocks) = shortNames st := by
  refine List.ext_getElem? (fun i => ?e)
  unfold shortNames
  rw [List.getElem?_map, List.getElem?_map]
  exact map_eq_of_otherFields _ _ (linkAll_otherFields m blocks i st)

lemma classMap_eq_aux (api : List APIRecord) :
    classMap api = classMapAux [] 0 (shortNames api) := rfl

lemma classMap_linkAll (m : List (String × Nat)) (blocks : List (String × List String))
    (st : List APIRecord) : classMap (linkAll m st blocks) = classMap st := by
  rw [classMap_eq_aux, classMap_eq_aux, linkAll_shortNames]

/-! ## The per-document dispatch -/

lemma writeDoc_api (st : BuildState) (d : Document) :
    (writeDoc st d).all_api_classes =
      (if substrB d.docname "reference/python" = true
       then st.all_api_classes ++ apiVisit d.tree
       else st.all_api_classes) := by
  simp only [writeDoc]
  by_cases h1 : substrB d.docname "reference/python" = true <;>
    by_cases h2 : (d.suffix = ".ipynb" ∨ d.suffix = ".md") <;>
      by_cases h3 : codeBlocksOf d.tree = [] <;>
        by_cases h4 : apiVisit d.tree = [] <;>
          simp [h1, h2, h3, h4]

lemma writeDoc_blocks (st : BuildState) (d : Document) :
    (writeDoc st d).all_code_blocks =
      (if (d.suffix = ".ipynb" ∨ d.suffix = ".md") then
        (if codeBlocksOf d.tree = [] then st.all_code_blocks
         else dictInsertBlocks st.all_code_blocks d.docname (codeBlocksOf d.tree))
       else st.all_code_blocks) := by
  simp only [writeDoc]
  by_cases h1 : substrB d.docname "reference/python" = true <;>
    by_cases h2 : (d.suffix = ".ipynb" ∨ d.suffix = ".md") <;>
      by_cases h3 : codeBlocksOf d.tree = [] <;>
        by_cases h4 : apiVisit d.tree = [] <;>
          simp [h1, h2, h3, h4]

lemma foldl_writeDoc_api (docs : List Document) :
    ∀ st : BuildState, (docs.foldl writeDoc st).all_api_classes =
      st.all_api_classes ++
        ((docs.filter (fun d => substrB d.docname "reference/python")).map
          (fun d => apiVisit d.tree)).flatten := by
  induction docs with
  | nil => intro st; simp
  | cons d ds ih =>
    intro st
    show (ds.foldl writeDoc (writeDoc st d)).all_api_classes = _
    rw [ih (writeDoc st d), writeDoc_api]
    by_cases h1 : substrB d.docname "reference/python" = true <;>
      simp [List.filter_cons, h1, List.append_assoc]

/-! ## Last helpers before the claim theorems -/

lemma finishLink_eq (api : List APIRecord) (blocks : List (String × List String)) :
    finishLink api blocks = linkAll (classMap api) api blocks := rfl

lemma cm_key_unique (api : List APIRecord) (s s2 : String) (v : Nat)
    (h1 : (s, v) ∈ classMap api) (h2 : (s2, v) ∈ classMap api) : s = s2 := by
  obtain ⟨r, hr, hs⟩ := cm_short api s v h1
  obtain ⟨r2, hr2, hs2⟩ := cm_short api s2 v h2
  rw [hr] at hr2
  obtain rfl : r = r2 := by injection hr2
  rw [← hs, ← hs2]

lemma map_classNames_of_otherFields (o1 o2 : Option APIRecord)
    (h : o1.map otherFields = o2.map otherFields) :
    o1.map (fun r => r.class_name) = o2.map (fun r => r.class_name) := by
  cases o1 <;> cases o2 <;> simp_all [otherFields, Prod.ext_iff]

lemma linkAll_classNames (m : List (String × Nat)) (blocks : List (String × List String))
    (st : List APIRecord) :
    (linkAll m st blocks).map (fun r => r.class_name) = st.map (fun r => r.class_name) := by
  refine List.ext_getElem? (fun i => ?e)
  rw [List.getElem?_map, List.getElem?_map]
  exact map_classNames_of_otherFields _ _ (linkAll_otherFields m blocks i st)

lemma itemParamOf_fst (li : DocNode) : (itemParamOf li).1 = specItemParam li := by
  cases h : findFirstPath isParagraphNode li with
  | none => simp [itemParamOf, specItemParam, h]
  | some pq =>
    cases h2 : getAt pq li with
    | none => simp [itemParamOf, specItemParam, h, h2]
    | some para => simp [itemParamOf, specItemParam, h, h2]

lemma itemParamOf_snd (li : DocNode) : (itemParamOf li).2 = specMutateItem li := by
  cases h : findFirstPath isParagraphNode li with
  | none => simp [itemParamOf, specMutateItem, h]
  | some pq =>
    cases h2 : getAt pq li with
    | none => simp [itemParamOf, specMutateItem, h, h2]
    | some para => simp [itemParamOf, specMutateItem, h, h2]

lemma processItems_eq_specFold (qs : List (List Nat)) :
    ∀ b : DocNode, processItems b qs = specFold b qs := by
  induction qs with
  | nil => intro b; rfl
  | cons q qs2 ih =>
    intro b
    cases hg : getAt q b with
    | none => simp [processItems, specFold, hg, ih]
    | some li => simp [processItems, specFold, hg, ih, itemParamOf_fst, itemParamOf_snd]

/-! ## The claims -/

/-- **C1** — For every collected code block `B` and every
`(short-name, record)` pair `(S, i)` in the linking lookup (the record
identified by its index `i`, with its examples initially empty as the
collection phase leaves them), the linker puts `B`'s exact text into
that record's examples exactly when `S` occurs in `B` as a
case-sensitive match bounded by word boundaries (`StandaloneOcc`); an
occurrence of `S` only inside a longer identifier is not a standalone
occurrence and never causes `B` to be linked.  `S` ranges over
identifier-shaped short names (nonempty, word characters). -/
theorem claim_linker_word_boundary (api : List APIRecord)
    (blocks : List (String × List String)) (sS B : String) (i : Nat)
    (hm : (sS, i) ∈ classMap api)
    (hSne : sS.data ≠ []) (hSw : ∀ c ∈ sS.data, isWordChar c = true)
    (hB : B ∈ allCodes blocks)
    (hinit : exAt api i = []) :
    B ∈ exAt (finishLink api blocks) i ↔ StandaloneOcc sS B := by
  rw [finishLink_eq]
  constructor
  · intro h
    rcases linkAll_exAt_sound (classMap api) blocks B i api h with h2 | ⟨-, s2, hm2, hs2⟩
    · rw [hinit] at h2
      exact absurd h2 (List.not_mem_nil _)
    · have hkey : s2 = sS := cm_key_unique api s2 sS i hm2 hm
      rw [hkey] at hs2
      exact (searchWB_iff_standalone sS B hSne hSw).mp hs2
  · intro h
    have hs : searchWB sS B = true := (searchWB_iff_standalone sS B hSne hSw).mpr h
    exact linkAll_establish (classMap api) blocks B sS i hm hB hs api (cm_bound api sS i hm)

theorem claim_linker_word_boundary_witness :
    ("b = Agent()" ∈ exAt (finishLink
        [{ class_name := "pkg.Agent", signature := "", description := "",
           parameters := [], examples := [] }]
        [("doc", ["a = AssistantAgent()", "b = Agent()"])]) 0) ↔
      StandaloneOcc "Agent" "b = Agent()" :=
  claim_linker_word_boundary
    [{ class_name := "pkg.Agent", signature := "", description := "",
       parameters := [], examples := [] }]
    [("doc", ["a = AssistantAgent()", "b = Agent()"])]
    "Agent" "b = Agent()" 0 (by decide) (by decide) (by decide) (by decide) (by decide)

/-- **C2** — After linking, no record's examples list holds duplicate
snippet text: when every collected record starts with duplicate-free
examples (the collection phase creates them empty), every record of
the linker's output has duplicate-free examples, even when a short
name occurs several times in a block or the same block text was
collected from several documents. -/
theorem claim_examples_nodup (api : List APIRecord)
    (blocks : List (String × List String))
    (h : ∀ r ∈ api, r.examples.Nodup) :
    ∀ r ∈ finishLink api blocks, r.examples.Nodup := by
  intro r hr
  obtain ⟨j, hlt, hj⟩ := List.mem_iff_getElem.mp hr
  have hj2 : (finishLink api blocks)[j]? = some r := by
    rw [List.getElem?_eq_getElem hlt, hj]
  have hex : exAt (finishLink api blocks) j = r.examples := exAt_some _ _ _ hj2
  rw [← hex, finishLink_eq]
  refine linkAll_nodup (classMap api) blocks j api ?base
  cases hb : api[j]? with
  | none =>
    rw [exAt_none _ _ hb]
    exact List.nodup_nil
  | some r0 =>
    rw [exAt_some _ _ _ hb]
    exact h r0 (List.getElem?_mem hb)

theorem claim_examples_nodup_witness :
    (APIRecord.mk "pkg.Agent" "" "" [] ["x = Agent()"]).examples.Nodup ∧
      finishLink
        [{ class_name := "pkg.Agent", signature := "", description := "",
           parameters := [], examples := [] }]
        [("d1", ["x = Agent()"]), ("d2", ["x = Agent()", "x = Agent()"])] =
        [APIRecord.mk "pkg.Agent" "" "" [] ["x = Agent()"]] := by
  have heq : finishLink
      [{ class_name := "pkg.Agent", signature := "", description := "",
         parameters := [], examples := [] }]
      [("d1", ["x = Agent()"]), ("d2", ["x = Agent()", "x = Agent()"])] =
      [APIRecord.mk "pkg.Agent" "" "" [] ["x = Agent()"]] := by decide
  refine ⟨?nd, heq⟩
  refine claim_examples_nodup
    [{ class_name := "pkg.Agent", signature := "", description := "",
       parameters := [], examples := [] }]
    [("d1", ["x = Agent()"]), ("d2", ["x = Agent()", "x = Agent()"])]
    (by decide) _ ?mem
  rw [heq]
  exact List.mem_singleton.mpr rfl

/-- **C3** — The linking pass is idempotent: running the linker again
on its own output (with the same code-block mapping) changes nothing,
because every matching block is already present in the matched
record's examples and the lookup built from the output equals the
lookup built from the input. -/
theorem claim_linker_idempotent (api : List APIRecord)
    (blocks : List (String × List String)) :
    finishLink (finishLink api blocks) blocks = finishLink api blocks := by
  rw [finishLink_eq, finishLink_eq, classMap_linkAll]
  refine linkAll_stable _ _ _ (fun s j hm code hcode hs => ?est)
  exact linkAll_establish (classMap api) blocks code s j hm hcode hs api (cm_bound api s j hm)

/-- **C4** — When two collected records (at positions `i < j`) share a
short name, the lookup retains only a later-collected record: every
lookup entry for that short name points strictly after `i`, and the
earlier record's examples are left untouched by the whole linking
phase (no error is raised — the linker is a total function). -/
theorem claim_shortname_collision (api : List APIRecord)
    (blocks : List (String × List String)) (i j : Nat) (ri rj : APIRecord)
    (hi : api[i]? = some ri) (hj : api[j]? = some rj) (hij : i < j)
    (hs : shortName ri.class_name = shortName rj.class_name) :
    (∀ v, (shortName ri.class_name, v) ∈ classMap api → i < v) ∧
      exAt (finishLink api blocks) i = exAt api i := by
  have hfirst : ∀ v, (shortName ri.class_name, v) ∈ classMap api → i < v := by
    intro v hv
    rcases Nat.lt_or_ge v j with hvj | hvj
    · exact absurd hs.symm (cm_last api _ v hv j rj hvj hj)
    · omega
  refine ⟨hfirst, ?untouched⟩
  rw [finishLink_eq]
  refine linkAll_untouched (classMap api) blocks i ?noval api
  intro s2 hmem
  obtain ⟨r2, hr2, hs2⟩ := cm_short api s2 i hmem
  rw [hi] at hr2
  obtain rfl : ri = r2 := by injection hr2
  rw [← hs2] at hmem
  exact absurd (hfirst i hmem) (lt_irrefl i)

theorem claim_shortname_collision_witness :
    (∀ v, ("Bar", v) ∈ classMap
      [{ class_name := "foo.Bar", signature := "", description := "",
         parameters := [], examples := [] },
       { class_name := "baz.Bar", signature := "", description := "",
         parameters := [], examples := [] }] → 0 < v) ∧
      exAt (finishLink
        [{ class_name := "foo.Bar", signature := "", description := "",
           parameters := [], examples := [] },
         { class_name := "baz.Bar", signature := "", description := "",
           parameters := [], examples := [] }]
        [("d", ["x = Bar()"])]) 0 =
        exAt
          [{ class_name := "foo.Bar", signature := "", description := "",
             parameters := [], examples := [] },
           { class_name := "baz.Bar", signature := "", description := "",
             parameters := [], examples := [] }] 0 :=
  claim_shortname_collision _ [("d", ["x = Bar()"])] 0 1
    { class_name := "foo.Bar", signature := "", description := "",
      parameters := [], examples := [] }
    { class_name := "baz.Bar", signature := "", description := "",
      parameters := [], examples := [] }
    (by decide) (by decide) (by decide) (by decide)

/-- **C5 counterexample** — the claim as stated (one record per
accepted list item, each read independently: `specItemParam` on the
pristine tree) is false of the code.  On a field body whose outer list
item has no paragraph of its own and shares its first paragraph with a
nested list item, the code's loop emits the record once — processing
the outer item removes the `strong`/`emphasis`, so the nested item
then finds no `strong`, gets an empty name and is discarded — while
the per-item reading predicts the record twice. -/
theorem claim_field_extraction_cex :
    (visitFieldChildren
      [DocNode.elem (.other "field_name") [DocNode.text "Parameters"],
       DocNode.elem (.other "field_body")
         [DocNode.elem (.other "bullet_list")
           [DocNode.elem .listItem
             [DocNode.elem (.other "bullet_list")
               [DocNode.elem .listItem
                 [DocNode.elem .paragraph
                   [DocNode.elem .strong [DocNode.text "b"],
                    DocNode.elem .emphasis [DocNode.text "str"],
                    DocNode.text "– d2"]]]]]]]).1 =
      [{ name := "b", type_str := "str", description := "d2" }] ∧
    (collectAll isListItemNode
      (DocNode.elem (.other "field_body")
        [DocNode.elem (.other "bullet_list")
          [DocNode.elem .listItem
            [DocNode.elem (.other "bullet_list")
              [DocNode.elem .listItem
                [DocNode.elem .paragraph
                  [DocNode.elem .strong [DocNode.text "b"],
                   DocNode.elem .emphasis [DocNode.text "str"],
                   DocNode.text "– d2"]]]]]])).filterMap specItemParam =
      [{ name := "b", type_str := "str", description := "d2" },
       { name := "b", type_str := "str", description := "d2" }] ∧
    (visitFieldChildren
      [DocNode.elem (.other "field_name") [DocNode.text "Parameters"],
       DocNode.elem (.other "field_body")
         [DocNode.elem (.other "bullet_list")
           [DocNode.elem .listItem
             [DocNode.elem (.other "bullet_list")
               [DocNode.elem .listItem
                 [DocNode.elem .paragraph
                   [DocNode.elem .strong [DocNode.text "b"],
                    DocNode.elem .emphasis [DocNode.text "str"],
                    DocNode.text "– d2"]]]]]]]).1 ≠
      (collectAll isListItemNode
        (DocNode.elem (.other "field_body")
          [DocNode.elem (.other "bullet_list")
            [DocNode.elem .listItem
              [DocNode.elem (.other "bullet_list")
                [DocNode.elem .listItem
                  [DocNode.elem .paragraph
                    [DocNode.elem .strong [DocNode.text "b"],
                     DocNode.elem .emphasis [DocNode.text "str"],
                     DocNode.text "– d2"]]]]]])).filterMap specItemParam := by
  refine ⟨by decide, by decide, by decide⟩

/-- **C5 (amended)** — A `field` node visited while a class record is
open contributes no parameter records (and mutates nothing) when it
does not have exactly two children or its label text does not contain
`"Parameters"`.  When accepted, the collected list items are processed
in order against the *evolving* body — the removals of each item's
first `strong` and `emphasis` subtrees persisting into every later
item — and each item, as it stands when reached, contributes per the
original rules (`specItemParam`): name from the first `strong` node,
type from the first `emphasis` node (default `"Any"`), description the
trimmed text after the first en dash of the remaining paragraph text
(empty when absent), items with an empty name (or no paragraph)
discarded; in particular an item whose first paragraph was shared with
an earlier item finds its `strong` already removed and is discarded. -/
theorem claim_field_extraction_amended (cs : List DocNode) :
    (cs.length ≠ 2 → visitFieldChildren cs = ([], cs)) ∧
    (∀ a b, cs = [a, b] → substrB (astext a) "Parameters" = false →
      visitFieldChildren cs = ([], cs)) ∧
    (∀ a b, cs = [a, b] → substrB (astext a) "Parameters" = true →
      visitFieldChildren cs =
        (let r := specFold b (collectPaths isListItemNode b)
         (r.1, [a, r.2]))) := by
  refine ⟨?len, ?lab, ?ok⟩
  · intro hlen
    cases cs with
    | nil => rfl
    | cons a t =>
      cases t with
      | nil => rfl
      | cons b t2 =>
        cases t2 with
        | nil => exact absurd rfl hlen
        | cons c t3 => rfl
  · rintro a b rfl hlab
    simp [visitFieldChildren, hlab]
  · rintro a b rfl hlab
    simp [visitFieldChildren, hlab, processItems_eq_specFold]

theorem claim_field_extraction_amended_witness :
    visitFieldChildren
      [DocNode.elem (.other "field_name") [DocNode.text "Parameters"],
       DocNode.elem (.other "field_body")
         [DocNode.elem (.other "bullet_list")
           [DocNode.elem .listItem
             [DocNode.elem .paragraph
               [DocNode.elem .strong [DocNode.text "size"], DocNode.text " (",
                DocNode.elem .emphasis [DocNode.text "int"],
                DocNode.text ") – the size"]]]]] =
      (let r := specFold
          (DocNode.elem (.other "field_body")
            [DocNode.elem (.other "bullet_list")
              [DocNode.elem .listItem
                [DocNode.elem .paragraph
                  [DocNode.elem .strong [DocNode.text "size"], DocNode.text " (",
                   DocNode.elem .emphasis [DocNode.text "int"],
                   DocNode.text ") – the size"]]]])
          (collectPaths isListItemNode
            (DocNode.elem (.other "field_body")
              [DocNode.elem (.other "bullet_list")
                [DocNode.elem .listItem
                  [DocNode.elem .paragraph
                    [DocNode.elem .strong [DocNode.text "size"], DocNode.text " (",
                     DocNode.elem .emphasis [DocNode.text "int"],
                     DocNode.text ") – the size"]]]]))
       (r.1, [DocNode.elem (.other "field_name") [DocNode.text "Parameters"], r.2])) ∧
    (visitFieldChildren
      [DocNode.elem (.other "field_name") [DocNode.text "Parameters"],
       DocNode.elem (.other "field_body")
         [DocNode.elem (.other "bullet_list")
           [DocNode.elem .listItem
             [DocNode.elem .paragraph
               [DocNode.elem .strong [DocNode.text "size"], DocNode.text " (",
                DocNode.elem .emphasis [DocNode.text "int"],
                DocNode.text ") – the size"]]]]]).1 =
      [{ name := "size", type_str := "int", description := "the size" }] := by
  refine ⟨(claim_field_extraction_amended _).2.2 _ _ rfl (by decide), ?val⟩
  decide

/-- **C6** — The per-document collection step: the API visitor's
output is appended exactly when the docname contains the substring
`"reference/python"`, and the code-block mapping is updated exactly
when the source suffix is `.ipynb` or `.md`; the two updates are
controlled by independent conditions on different inputs (one reads
only the docname, the other only the suffix), so a document may
contribute to both, either, or neither collection. -/
theorem claim_write_doc_dispatch (st : BuildState) (d : Document) :
    ((writeDoc st d).all_api_classes =
      (if substrB d.docname "reference/python" = true
       then st.all_api_classes ++ apiVisit d.tree
       else st.all_api_classes)) ∧
    ((writeDoc st d).all_code_blocks =
      (if d.suffix = ".ipynb" ∨ d.suffix = ".md" then
        (if codeBlocksOf d.tree = [] then st.all_code_blocks
         else dictInsertBlocks st.all_code_blocks d.docname (codeBlocksOf d.tree))
       else st.all_code_blocks)) :=
  ⟨writeDoc_api st d, writeDoc_blocks st d⟩

/-- **C7** — The linking phase has no failure path: it is a total
function producing a record list of the same length for every input,
and a record whose short name is matched by no collected code block
keeps its (empty) examples list. -/
theorem claim_linker_no_failure (api : List APIRecord)
    (blocks : List (String × List String)) (i : Nat) (r : APIRecord)
    (hr : api[i]? = some r) (hex : r.examples = [])
    (hnm : ∀ code ∈ allCodes blocks, searchWB (shortName r.class_name) code = false) :
    (finishLink api blocks).length = api.length ∧
      ∃ r2, (finishLink api blocks)[i]? = some r2 ∧ r2.examples = [] := by
  have hlen : (finishLink api blocks).length = api.length := by
    rw [finishLink_eq]
    exact linkAll_length _ _ api
  have hlt : i < api.length := (List.getElem?_eq_some.mp hr).1
  have hlt2 : i < (finishLink api blocks).length := by omega
  obtain ⟨r2, hr2⟩ : ∃ r2, (finishLink api blocks)[i]? = some r2 :=
    ⟨_, List.getElem?_eq_getElem hlt2⟩
  refine ⟨hlen, r2, hr2, ?empty⟩
  have hx : exAt (finishLink api blocks) i = r2.examples := exAt_some _ _ _ hr2
  rw [← hx]
  refine List.eq_nil_iff_forall_not_mem.mpr (fun c hc => ?nc)
  rw [finishLink_eq] at hc
  rcases linkAll_exAt_sound (classMap api) blocks c i api hc with h2 | ⟨hcod, s2, hm2, hs2⟩
  · rw [exAt_some _ _ _ hr, hex] at h2
    exact absurd h2 (List.not_mem_nil c)
  · obtain ⟨r3, hr3, hs3⟩ := cm_short api s2 i hm2
    rw [hr] at hr3
    obtain rfl : r = r3 := by injection hr3
    rw [hs3] at hnm
    rw [hnm c hcod] at hs2
    cases hs2

theorem claim_linker_no_failure_witness :
    (finishLink
      [{ class_name := "pkg.Widget", signature := "", description := "",
         parameters := [], examples := [] }]
      [("d", ["x = 1"])]).length = 1 ∧
    exAt (finishLink
      [{ class_name := "pkg.Widget", signature := "", description := "",
         parameters := [], examples := [] }]
      [("d", ["x = 1"])]) 0 = [] := by
  have h := claim_linker_no_failure
    [{ class_name := "pkg.Widget", signature := "", description := "",
       parameters := [], examples := [] }]
    [("d", ["x = 1"])] 0
    { class_name := "pkg.Widget", signature := "", description := "",
      parameters := [], examples := [] }
    (by decide) (by decide) (by decide)
  exact ⟨h.1, by decide⟩

/-- **C8** — The linking phase mutates only `examples`: the output has
the same length as the input and, position by position, the same
`class_name`, `signature`, `description` and `parameters`. -/
theorem claim_linker_frame (api : List APIRecord)
    (blocks : List (String × List String)) :
    (finishLink api blocks).length = api.length ∧
      ∀ i : Nat, (finishLink api blocks)[i]?.map otherFields = api[i]?.map otherFields := by
  rw [finishLink_eq]
  exact ⟨linkAll_length _ _ api, fun i => linkAll_otherFields _ _ i api⟩

/-- **C9** — Order preservation: after the whole collection run the
record sequence is the concatenation, in per-document call order, of
each qualifying document's visitor output (itself in tree-walk order
by construction of `apiVisit`), and the linking phase preserves the
positions of all records (their `class_name` sequence is unchanged);
nothing is sorted or reordered before emission, which serializes this
very list. -/
theorem claim_order_preserved (docs : List Document)
    (blocks : List (String × List String)) :
    ((docs.foldl writeDoc initState).all_api_classes =
      ((docs.filter (fun d => substrB d.docname "reference/python")).map
        (fun d => apiVisit d.tree)).flatten) ∧
    ∀ api : List APIRecord,
      (finishLink api blocks).map (fun r => r.class_name) =
        api.map (fun r => r.class_name) := by
  constructor
  · rw [foldl_writeDoc_api docs initState]
    rfl
  · intro api
    rw [finishLink_eq]
    exact linkAll_classNames _ _ api

/-- **C10** — A class `desc` node with no signature descendant
produces no record at all: `descRecord` yields `none` and the visitor
leaves its state unchanged (silent skip, no `"UnknownClass"` record
appended).  When a signature descendant exists, a record is produced
and its `class_name` is the head of the signature's `ids` attribute,
the `"UnknownClass"` sentinel being used exactly in the branch where
`ids` is empty. -/
theorem claim_desc_no_signature (objtype : String) (cs : List DocNode) :
    (findFirst isSigNode (DocNode.elem (.desc objtype) cs) = none →
      descRecord (DocNode.elem (.desc objtype) cs) = none ∧
      ∀ (ws : WalkState) (path : List Nat),
        getAt path ws.tree = some (DocNode.elem (.desc objtype) cs) →
        visitAt ws path (.desc objtype) = ws) ∧
    (∀ sig, findFirst isSigNode (DocNode.elem (.desc objtype) cs) = some sig →
      ∃ r, descRecord (DocNode.elem (.desc objtype) cs) = some r ∧
        r.class_name = (match sigIds sig with | [] => "UnknownClass" | i :: _ => i)) := by
  constructor
  · intro hn
    have hd : descRecord (DocNode.elem (.desc objtype) cs) = none := by
      unfold descRecord
      rw [hn]
    refine ⟨hd, fun ws path hget => ?vis⟩
    simp only [visitAt]
    split
    · rw [hget]
      simp only [hd]
    · rfl
  · intro sig hsig
    unfold descRecord
    rw [hsig]
    exact ⟨_, rfl, rfl⟩

theorem claim_desc_no_signature_witness :
    descRecord (DocNode.elem (.desc "class")
      [DocNode.elem .descContent [DocNode.text "x"]]) = none ∧
    visitAt
      { data := [], current := none,
        tree := DocNode.elem (.desc "class") [DocNode.elem .descContent [DocNode.text "x"]] }
      [] (.desc "class") =
      { data := [], current := none,
        tree := DocNode.elem (.desc "class") [DocNode.elem .descContent [DocNode.text "x"]] } := by
  have h := (claim_desc_no_signature "class"
    [DocNode.elem .descContent [DocNode.text "x"]]).1 rfl
  exact ⟨h.1, h.2 _ [] rfl⟩

end JsonBuilder
